import Mathlib

/-!
# Verification of the scrapy-web-scraper repository against its specification

Shallow embedding of the core of the repository:

* `src/scraper/spiders/maxroll.py` — the crawl spider (URL normalization,
  scope filtering, frontier bookkeeping, per-page parsing, final output merge);
* `src/dedupe.py` — the offline dedup/scoring engine.

Python strings are modelled as `List Char` (`Str`).  A parsed URL
(`urllib.parse.urlparse` result) is modelled as the six-component structure
`Url`; `urlunparse` is modelled for URLs that carry a scheme and a netloc,
which is the shape of every URL handled by the spider.  Python `set`s of
strings are modelled as membership-guarded lists, Python `dict`s as
association lists with last-write-wins update, and `hashlib.md5` as the
identity on the canonical pre-image string (a collision-free abstraction:
two digests are equal exactly when the hashed strings are equal).
-/

namespace Scraper

/-- Python strings, as lists of characters (compared by code point,
as Python does). -/
abbrev Str := List Char

/-- A parsed URL: the six components of `urllib.parse.urlparse`. -/
structure Url where
  scheme : Str
  netloc : Str
  path : Str
  params : Str
  query : Str
  fragment : Str
deriving DecidableEq, Repr

/-- `urllib.parse.urlunparse` restricted to URLs with a scheme and a netloc
(every URL the spider handles): `scheme://netloc path [;params] [?query]
[#fragment]`. -/
def urlunparse (u : Url) : Str :=
  u.scheme ++ ':' :: '/' :: '/' :: u.netloc ++ u.path
    ++ (if u.params = [] then [] else ';' :: u.params)
    ++ (if u.query = [] then [] else '?' :: u.query)
    ++ (if u.fragment = [] then [] else '#' :: u.fragment)

/-- Python `s.split('/')`: split a string at every `'/'`; the result is never
empty and never contains the separator (`"".split('/') == ['']`). -/
def pySplitSlash : Str → List Str
  | [] => [[]]
  | c :: cs =>
    match pySplitSlash cs with
    | [] => [[]]
    | s :: ss => if c = '/' then [] :: s :: ss else (c :: s) :: ss

/-- `[part for part in parsed.path.split('/') if part]` — the non-empty path
segments, in order. -/
def pathParts (p : Str) : List Str :=
  (pySplitSlash p).filter (fun s => s ≠ [])

/-- Python `'/'.join(parts)`. -/
def joinSlash : List Str → Str
  | [] => []
  | [s] => s
  | s :: s' :: ss => s ++ '/' :: joinSlash (s' :: ss)

namespace Maxroll

/-- `MaxrollSpider._normalize_url` (maxroll.py:68-80): re-serialize the parsed
URL with the fragment replaced by the empty string, keeping scheme, netloc,
path, params and query. -/
def normalizeUrl (u : Url) : Str :=
  urlunparse { u with fragment := [] }

/-- `MaxrollSpider._get_path_filter` (maxroll.py:82-96): derive the path
filter from a URL.  `filter_depth = 0` disables filtering (`None`);
`filter_depth = 1` takes the first non-empty segment; deeper filters join the
first `filter_depth` segments with `'/'`, falling back to the full (shorter)
segment path, or `None` when the path has no segments at all. -/
def getPathFilter (filterDepth : Nat) (u : Url) : Option Str :=
  let path_parts := pathParts u.path
  if filterDepth = 0 then none
  else if filterDepth = 1 then path_parts.head?
  else if filterDepth ≤ path_parts.length then
    some (joinSlash (path_parts.take filterDepth))
  else if path_parts = [] then none
  else some (joinSlash path_parts)

/-- `MaxrollSpider._matches_filter` (maxroll.py:98-117): decide whether a
candidate URL passes the path filter.  A `None` (or empty, Python falsiness)
filter and `filter_depth = 0` always pass; `filter_depth = 1` compares the
first segment; otherwise URLs with at least `filter_depth` segments must match
the filter on their first `filter_depth` segments joined by `'/'`, and shorter
URLs pass when the filter string starts with `url_path + '/'` or equals
`url_path`. -/
def matchesFilter (filterDepth : Nat) (pathFilter : Option Str) (u : Url) : Bool :=
  match pathFilter with
  | none => true
  | some pf =>
    if pf = [] then true
    else if filterDepth = 0 then true
    else
      let path_parts := pathParts u.path
      if filterDepth = 1 then
        match path_parts with
        | [] => false
        | p0 :: _ => p0 = pf
      else if filterDepth ≤ path_parts.length then
        joinSlash (path_parts.take filterDepth) = pf
      else
        (joinSlash path_parts ++ ['/']).isPrefixOf pf
          || joinSlash path_parts = pf

end Maxroll

namespace Dedupe

/-- `dedupe.normalize_url` (dedupe.py:14-17):
`f"{parsed.scheme}://{parsed.netloc}{parsed.path}"` — scheme, netloc and path
only; params, query and fragment are all dropped. -/
def normalize_url (u : Url) : Str :=
  u.scheme ++ ':' :: '/' :: '/' :: u.netloc ++ u.path

end Dedupe

/-! ### Path-segment facts used by the scope-filter claims -/

/-- Every list of path segments the code manipulates consists of non-empty
`'/'`-free strings. -/
def SegsWF (l : List Str) : Prop := ∀ s ∈ l, s ≠ [] ∧ '/' ∉ s

lemma pySplitSlash_cons_eq {c : Char} {cs : Str} {t : Str} {ts : List Str}
    (h : pySplitSlash cs = t :: ts) :
    pySplitSlash (c :: cs) = if c = '/' then [] :: t :: ts else (c :: t) :: ts := by
  simp [pySplitSlash, h]

lemma pySplitSlash_ne_nil (p : Str) : pySplitSlash p ≠ [] := by
  induction p with
  | nil => simp [pySplitSlash]
  | cons c cs ih =>
    rcases h : pySplitSlash cs with _ | ⟨t, ts⟩
    · exact absurd h ih
    · rw [pySplitSlash_cons_eq h]
      split <;> simp

lemma slash_notMem_pySplitSlash (p : Str) : ∀ s ∈ pySplitSlash p, '/' ∉ s := by
  induction p with
  | nil =>
    intro s hs
    simp [pySplitSlash] at hs
    simp [hs]
  | cons c cs ih =>
    intro s hs
    rcases h : pySplitSlash cs with _ | ⟨t, ts⟩
    · exact absurd h (pySplitSlash_ne_nil cs)
    · rw [pySplitSlash_cons_eq h] at hs
      by_cases hc : c = '/'
      · rw [if_pos hc] at hs
        rcases List.mem_cons.mp hs with rfl | hs'
        · simp
        · exact ih s (by rw [h]; exact hs')
      · rw [if_neg hc] at hs
        rcases List.mem_cons.mp hs with rfl | hs'
        · intro hmem
          rcases List.mem_cons.mp hmem with h1 | h1
          · exact hc h1.symm
          · exact ih t (by rw [h]; exact List.mem_cons_self t ts) h1
        · exact ih s (by rw [h]; exact List.mem_cons_of_mem t hs')

lemma pathParts_wf (p : Str) : SegsWF (pathParts p) := by
  intro s hs
  refine ⟨?_, slash_notMem_pySplitSlash p s (List.mem_of_mem_filter hs)⟩
  have h1 := List.of_mem_filter hs
  simpa using h1

lemma SegsWF.sub {l l' : List Str} (h : SegsWF l) (hsub : l' ⊆ l) : SegsWF l' :=
  fun s hs => h s (hsub hs)

lemma joinSlash_cons (s : Str) (ss : List Str) :
    joinSlash (s :: ss) = s ++ (if ss = [] then [] else '/' :: joinSlash ss) := by
  cases ss <;> simp [joinSlash]

lemma joinSlash_ne_nil {l : List Str} (hl : SegsWF l) (h : l ≠ []) :
    joinSlash l ≠ [] := by
  cases l with
  | nil => exact absurd rfl h
  | cons s ss =>
    rw [joinSlash_cons]
    have hs := (hl s (List.mem_cons_self s ss)).1
    cases s with
    | nil => exact absurd rfl hs
    | cons c cs => simp

lemma seg_slash_append_inj {s t a b : Str} (hs : '/' ∉ s) (ht : '/' ∉ t)
    (h : s ++ '/' :: a = t ++ '/' :: b) : s = t ∧ a = b := by
  induction s generalizing t with
  | nil =>
    cases t with
    | nil => simpa using h
    | cons d t' =>
      rw [List.nil_append, List.cons_append, List.cons.injEq] at h
      exact absurd (h.1 ▸ List.mem_cons_self d t') ht
  | cons c s' ih =>
    cases t with
    | nil =>
      rw [List.cons_append, List.nil_append, List.cons.injEq] at h
      exact absurd (h.1 ▸ List.mem_cons_self c s') hs
    | cons d t' =>
      rw [List.cons_append, List.cons_append, List.cons.injEq] at h
      obtain ⟨rfl, h2⟩ := h
      have hs' : '/' ∉ s' := fun hm => hs (List.mem_cons_of_mem c hm)
      have ht' : '/' ∉ t' := fun hm => ht (List.mem_cons_of_mem c hm)
      obtain ⟨rfl, rfl⟩ := ih hs' ht' h2
      exact ⟨rfl, rfl⟩

lemma seg_slash_append_pref {s t a b : Str} (hs : '/' ∉ s) (ht : '/' ∉ t) :
    (s ++ '/' :: a <+: t ++ '/' :: b) ↔ (s = t ∧ a <+: b) := by
  induction s generalizing t with
  | nil =>
    cases t with
    | nil => simp [List.cons_prefix_cons]
    | cons d t' =>
      constructor
      · intro h
        rw [List.nil_append, List.cons_append, List.cons_prefix_cons] at h
        exact absurd (h.1 ▸ List.mem_cons_self d t') ht
      · rintro ⟨h, -⟩
        exact absurd h (by simp)
  | cons c s' ih =>
    cases t with
    | nil =>
      constructor
      · intro h
        rw [List.cons_append, List.nil_append, List.cons_prefix_cons] at h
        exact absurd (h.1 ▸ List.mem_cons_self c s') hs
      · rintro ⟨h, -⟩
        exact absurd h (by simp)
    | cons d t' =>
      have hs' : '/' ∉ s' := fun hm => hs (List.mem_cons_of_mem c hm)
      have ht' : '/' ∉ t' := fun hm => ht (List.mem_cons_of_mem d hm)
      rw [List.cons_append, List.cons_append, List.cons_prefix_cons, ih hs' ht',
        List.cons.injEq]
      tauto

lemma joinSlash_inj {a b : List Str} (ha : SegsWF a) (hb : SegsWF b)
    (h : joinSlash a = joinSlash b) : a = b := by
  induction a generalizing b with
  | nil =>
    cases b with
    | nil => rfl
    | cons t ts =>
      exact absurd h.symm (joinSlash_ne_nil hb (by simp))
  | cons s ss ih =>
    cases b with
    | nil => exact absurd h (joinSlash_ne_nil ha (by simp))
    | cons t ts =>
      have hs := ha s (List.mem_cons_self s ss)
      have ht := hb t (List.mem_cons_self t ts)
      have ha' : SegsWF ss := fun x hx => ha x (List.mem_cons_of_mem s hx)
      have hb' : SegsWF ts := fun x hx => hb x (List.mem_cons_of_mem t hx)
      by_cases hss : ss = [] <;> by_cases hts : ts = []
      · subst hss; subst hts
        simp only [joinSlash] at h
        rw [h]
      · subst hss
        rw [show joinSlash [s] = s from rfl, joinSlash_cons t ts, if_neg hts] at h
        refine absurd ?_ hs.2
        rw [h]
        exact List.mem_append.mpr (Or.inr (List.mem_cons_self _ _))
      · subst hts
        rw [joinSlash_cons s ss, if_neg hss, show joinSlash [t] = t from rfl] at h
        refine absurd ?_ ht.2
        rw [← h]
        exact List.mem_append.mpr (Or.inr (List.mem_cons_self _ _))
      · rw [joinSlash_cons s ss, if_neg hss, joinSlash_cons t ts, if_neg hts] at h
        obtain ⟨rfl, h2⟩ := seg_slash_append_inj hs.2 ht.2 h
        rw [ih ha' hb' h2]

lemma joinSlash_slash_pref {cs rs : List Str} (hcs : SegsWF cs) (hrs : SegsWF rs) :
    (joinSlash cs ++ ['/'] <+: joinSlash rs) ↔
      (cs ≠ [] ∧ ∃ ds, ds ≠ [] ∧ rs = cs ++ ds) := by
  induction cs generalizing rs with
  | nil =>
    simp only [joinSlash, List.nil_append, ne_eq, not_true_eq_false, false_and,
      iff_false]
    intro h
    cases rs with
    | nil => simp [joinSlash] at h
    | cons r rs' =>
      have hr := hrs r (List.mem_cons_self r rs')
      cases hr' : r with
      | nil => exact hr.1 hr'
      | cons c r' =>
        rw [joinSlash_cons, hr', List.cons_append, List.cons_prefix_cons] at h
        refine hr.2 ?_
        rw [hr']
        exact h.1 ▸ List.mem_cons_self c r'
  | cons c0 cs' ih =>
    have hc0 := hcs c0 (List.mem_cons_self c0 cs')
    have hcs' : SegsWF cs' := fun x hx => hcs x (List.mem_cons_of_mem c0 hx)
    cases rs with
    | nil =>
      constructor
      · intro h
        rw [joinSlash] at h
        have h1 := List.IsPrefix.length_le h
        simp at h1
      · rintro ⟨-, ds, hds, h⟩
        exact absurd h (by simp)
    | cons r rs' =>
      have hr := hrs r (List.mem_cons_self r rs')
      have hrs' : SegsWF rs' := fun x hx => hrs x (List.mem_cons_of_mem r hx)
      by_cases hcs'e : cs' = []
      · subst hcs'e
        by_cases hrs'e : rs' = []
        · subst hrs'e
          constructor
          · intro h
            rw [joinSlash, joinSlash] at h
            exact absurd ((List.IsPrefix.subset h) (by simp)) hr.2
          · rintro ⟨-, ds, hds, h⟩
            rw [List.cons_append, List.cons.injEq] at h
            exact absurd h.2.symm (by simpa using hds)
        · have hL : joinSlash [c0] ++ ['/'] = c0 ++ '/' :: ([] : Str) := by
            simp [joinSlash]
          rw [hL, joinSlash_cons r, if_neg hrs'e,
            seg_slash_append_pref hc0.2 hr.2]
          constructor
          · intro h
            exact ⟨by simp, rs', hrs'e, by rw [h.1]; rfl⟩
          · rintro ⟨-, ds, hds, h⟩
            rw [List.cons_append, List.cons.injEq] at h
            obtain ⟨rfl, h2⟩ := h
            have : ds = rs' := by simpa using h2.symm
            exact ⟨rfl, List.nil_prefix⟩
      · by_cases hrs'e : rs' = []
        · subst hrs'e
          constructor
          · intro h
            rw [joinSlash_cons c0, if_neg hcs'e, joinSlash] at h
            have hmem : '/' ∈ r := (List.IsPrefix.subset h) (by simp)
            exact absurd hmem hr.2
          · rintro ⟨-, ds, hds, h⟩
            rw [List.cons_append, List.cons.injEq] at h
            exact absurd (List.append_eq_nil.mp h.2.symm).2 hds
        · rw [joinSlash_cons c0, if_neg hcs'e, joinSlash_cons r, if_neg hrs'e,
            List.append_assoc, List.cons_append,
            seg_slash_append_pref hc0.2 hr.2, ih hcs' hrs']
          constructor
          · rintro ⟨rfl, -, ds, hds, rfl⟩
            exact ⟨by simp, ds, hds, rfl⟩
          · rintro ⟨-, ds, hds, h⟩
            rw [List.cons_append, List.cons.injEq] at h
            obtain ⟨rfl, h2⟩ := h
            exact ⟨rfl, hcs'e, ds, hds, h2⟩

lemma isPrefixOf_true_iff (l₁ l₂ : Str) : l₁.isPrefixOf l₂ = true ↔ l₁ <+: l₂ := by
  induction l₁ generalizing l₂ with
  | nil => simp [List.isPrefixOf]
  | cons a as ih =>
    cases l₂ with
    | nil => simp [List.isPrefixOf]
    | cons b bs => simp [List.isPrefixOf, List.cons_prefix_cons, ih]

/-! ### C2 — URL normalization -/

/-- Claim C2 counterexample: two URLs differing only in the query string are
collapsed by dedupe.py's `normalize_url` (it drops the query), while the
spider's `_normalize_url` keeps them apart.  So the normalization used by the
URL-level dedup pass does not preserve the query string verbatim, and no
single query-preserving function is "the sole identity key" of both the
frontier sets and the dedup pass. -/
theorem normalize_url_query_cx :
    Dedupe.normalize_url
        (Url.mk "https".data "maxroll.gg".data "/d4/x".data [] "a=1".data []) =
      Dedupe.normalize_url
        (Url.mk "https".data "maxroll.gg".data "/d4/x".data [] "a=2".data []) ∧
    (Url.mk "https".data "maxroll.gg".data "/d4/x".data [] "a=1".data []).query ≠
      (Url.mk "https".data "maxroll.gg".data "/d4/x".data [] "a=2".data []).query ∧
    Maxroll.normalizeUrl
        (Url.mk "https".data "maxroll.gg".data "/d4/x".data [] "a=1".data []) ≠
      Maxroll.normalizeUrl
        (Url.mk "https".data "maxroll.gg".data "/d4/x".data [] "a=2".data []) := by
  decide

/-- Claim C2 (amended): both normalizers are pure functions of the parsed URL
that drop the fragment, so URLs differing only by fragment always normalize
identically under either of them; but they are two different keys — the
spider's `_normalize_url` (used by the frontier's discovered/scraped sets)
preserves scheme, host, path, params and query verbatim, while dedupe.py's
`normalize_url` (used by the URL-level dedup pass) additionally drops params
and query, keeping only scheme, host and path. -/
theorem normalize_drops_fragment_spec (u : Url) (f₁ f₂ : Str) :
    Maxroll.normalizeUrl { u with fragment := f₁ } =
        Maxroll.normalizeUrl { u with fragment := f₂ } ∧
    Dedupe.normalize_url { u with fragment := f₁ } =
        Dedupe.normalize_url { u with fragment := f₂ } ∧
    Maxroll.normalizeUrl u = urlunparse { u with fragment := [] } ∧
    Dedupe.normalize_url u = u.scheme ++ ':' :: '/' :: '/' :: u.netloc ++ u.path :=
  ⟨rfl, rfl, rfl, rfl⟩

/-! ### C4 — scope filter at depth ≥ 2 -/

/-- Claim C4 (amended): for filter depth `d ≥ 2` and a seed URL with at least
`d` path segments, a candidate URL passes `_matches_filter` iff (a) it has at
least `d` segments and its first `d` segments equal the rule's segments, or
(b) it has at least one but fewer than `d` segments and its full segment path
is a segment-wise prefix of the rule's segments.  (The claim's clause (b)
without the at-least-one-segment condition fails: see
`matchesFilter_shorter_url_cx`.) -/
theorem matchesFilter_depth_ge_two_spec (d : Nat) (seed cand : Url)
    (hd : 2 ≤ d) (hseed : d ≤ (pathParts seed.path).length) :
    (Maxroll.matchesFilter d (Maxroll.getPathFilter d seed) cand = true) ↔
      ((d ≤ (pathParts cand.path).length ∧
          (pathParts cand.path).take d = (pathParts seed.path).take d) ∨
        ((pathParts cand.path).length < d ∧ pathParts cand.path ≠ [] ∧
          pathParts cand.path <+: (pathParts seed.path).take d)) := by
  have hd0 : ¬(d = 0) := by omega
  have hd1 : ¬(d = 1) := by omega
  have hrs_wf : SegsWF ((pathParts seed.path).take d) :=
    (pathParts_wf seed.path).sub (List.take_subset d (pathParts seed.path))
  have hcs_wf : SegsWF (pathParts cand.path) := pathParts_wf cand.path
  have hrs_len : ((pathParts seed.path).take d).length = d := by
    rw [List.length_take]; omega
  have hrs_ne : (pathParts seed.path).take d ≠ [] := by
    intro hh
    rw [hh] at hrs_len
    simp at hrs_len
    omega
  have hpf : Maxroll.getPathFilter d seed =
      some (joinSlash ((pathParts seed.path).take d)) := by
    rw [Maxroll.getPathFilter]
    simp only [if_neg hd0, if_neg hd1, if_pos hseed]
  have hpf_ne : joinSlash ((pathParts seed.path).take d) ≠ [] :=
    joinSlash_ne_nil hrs_wf hrs_ne
  rw [hpf]
  simp only [Maxroll.matchesFilter, if_neg hpf_ne, if_neg hd0, if_neg hd1]
  by_cases hlen : d ≤ (pathParts cand.path).length
  · rw [if_pos hlen, decide_eq_true_eq]
    constructor
    · intro h
      exact Or.inl ⟨hlen,
        joinSlash_inj (hcs_wf.sub (List.take_subset d _)) hrs_wf h⟩
    · rintro (⟨-, h⟩ | ⟨hlt, -, -⟩)
      · rw [h]
      · omega
  · rw [if_neg hlen, Bool.or_eq_true, decide_eq_true_eq, isPrefixOf_true_iff,
      joinSlash_slash_pref hcs_wf hrs_wf]
    constructor
    · rintro (⟨hne, ds, hds, heq⟩ | heq)
      · refine Or.inr ⟨by omega, hne, ?_⟩
        rw [heq]
        exact List.prefix_append _ _
      · have hcr := joinSlash_inj hcs_wf hrs_wf heq
        have : (pathParts cand.path).length = d := by rw [hcr, hrs_len]
        omega
    · rintro (⟨hge, -⟩ | ⟨hlt, hne, hpref⟩)
      · exact absurd hge hlen
      · obtain ⟨ds, hds_eq⟩ := hpref
        refine Or.inl ⟨hne, ds, ?_, hds_eq.symm⟩
        intro hds0
        rw [hds0, List.append_nil] at hds_eq
        rw [← hds_eq] at hrs_len
        omega

/-- Claim C4 witness for `matchesFilter_depth_ge_two_spec`: a depth-2 filter
from seed `/d4/guides/x` accepts the candidate `/d4/guides/barbarian`. -/
theorem matchesFilter_depth_ge_two_spec_witness :
    Maxroll.matchesFilter 2
      (Maxroll.getPathFilter 2
        (Url.mk "https".data "maxroll.gg".data "/d4/guides/x".data [] [] []))
      (Url.mk "https".data "maxroll.gg".data "/d4/guides/barbarian".data [] [] [])
      = true :=
  (matchesFilter_depth_ge_two_spec 2
      (Url.mk "https".data "maxroll.gg".data "/d4/guides/x".data [] [] [])
      (Url.mk "https".data "maxroll.gg".data "/d4/guides/barbarian".data [] [] [])
      (by decide) (by decide)).mpr (Or.inl (by decide))

/-- Claim C4 counterexample to the claim as stated: the candidate
`https://maxroll.gg` (empty path, zero segments) has fewer segments than the
depth-2 rule `d4/guides`, and its (empty) segment path is a segment-wise
prefix of the rule's segments, yet `_matches_filter` rejects it — its string
test `path_filter.startswith(url_path + '/')` becomes
`"d4/guides".startswith("/")`, which is false. -/
theorem matchesFilter_shorter_url_cx :
    (pathParts (Url.mk "https".data "maxroll.gg".data [] [] [] []).path).length
        < 2 ∧
    pathParts (Url.mk "https".data "maxroll.gg".data [] [] [] []).path <+:
      (pathParts
        (Url.mk "https".data "maxroll.gg".data "/d4/guides/x".data [] [] []).path).take
        2 ∧
    Maxroll.matchesFilter 2
      (Maxroll.getPathFilter 2
        (Url.mk "https".data "maxroll.gg".data "/d4/guides/x".data [] [] []))
      (Url.mk "https".data "maxroll.gg".data [] [] [] []) = false := by
  decide

/-! ### Data model for scraped records -/

structure Heading where
  level : Nat
  text : Str
deriving DecidableEq, Repr

structure LinkEntry where
  url : Str
  text : Str
deriving DecidableEq, Repr

structure ImageEntry where
  src : Str
  alt : Str
deriving DecidableEq, Repr

/-- The `content` sub-dict of a scraped record.  `title` is checked with
`'title' in content` by `get_content_hash`, so its absence is observable and
it is an `Option`; every list-valued key is read through
`content.get(key, [])` (or guarded iteration), so a missing key is
indistinguishable from an empty list and is modelled as `[]`. -/
structure Content where
  headings : List Heading := []
  paragraphs : List Str := []
  lists : List (List Str) := []
  links : List LinkEntry := []
  images : List ImageEntry := []
  tables : List (List (List Str)) := []
  code_blocks : List Str := []
  structured_data : List Str := []
  title : Option Str := none
deriving DecidableEq, Repr

/-- One scraped record (one JSON object): `{'url': ..., 'title': ...,
'content': {...}, 'metadata': {...}}`.  `url` is an `Option` because
dedupe.py guards with `'url' in item` and the spider's output writer reads
`item.get('url', '')`. -/
structure Item where
  url : Option Url := none
  title : Option Str := none
  content : Content := {}
  metadata : List (Str × Str) := []
deriving DecidableEq, Repr

namespace Dedupe

/-- One `f"h{heading['level']}:{heading['text']}\n"` line of the digest
pre-image (dedupe.py:25-27). -/
def headingLine (h : Heading) : Str :=
  'h' :: (Nat.toDigits 10 h.level ++ ':' :: h.text ++ ['\n'])

def headingLines : List Heading → Str
  | [] => []
  | h :: hs => headingLine h ++ headingLines hs

/-- The `para[:100] + "\n"` lines of the digest pre-image (dedupe.py:30-32). -/
def paragraphLines : List Str → Str
  | [] => []
  | p :: ps => p.take 100 ++ '\n' :: paragraphLines ps

/-- The `f"title:{content['title']}\n"` line of the digest pre-image
(dedupe.py:35-36); empty when the `title` key is absent. -/
def titleLine : Option Str → Str
  | none => []
  | some t => 't' :: 'i' :: 't' :: 'l' :: 'e' :: ':' :: (t ++ ['\n'])

/-- `dedupe.get_content_hash` (dedupe.py:19-38): the canonical content-digest
pre-image — heading lines, then paragraph-prefix lines, then the title line.
`hashlib.md5` is modelled as the identity on this pre-image, a collision-free
abstraction under which two digests are equal exactly when the canonical
strings are equal. -/
def get_content_hash (c : Content) : Str :=
  headingLines c.headings ++ paragraphLines c.paragraphs ++ titleLine c.title

/-- `content_score` (dedupe.py:91-100): the content-richness score, with the
code's weights and summation order. -/
def content_score (item : Item) : Nat :=
  item.content.headings.length * 2
    + item.content.paragraphs.length * 3
    + item.content.lists.length * 2
    + item.content.links.length
    + item.content.images.length
    + item.content.tables.length * 5

/-- Python `max(items, key=content_score)` over the non-empty list
`best :: rest`: scan left to right, replacing the current best only on a
strictly greater key, so the first-encountered maximum wins ties. -/
def pyMax (key : Item → Nat) : Item → List Item → Item
  | best, [] => best
  | best, x :: xs => pyMax key (if key best < key x then x else best) xs

end Dedupe

/-! ### C3 — content digest -/

lemma paragraphLines_congr {ps₁ ps₂ : List Str}
    (h : ps₁.map (fun p => p.take 100) = ps₂.map (fun p => p.take 100)) :
    Dedupe.paragraphLines ps₁ = Dedupe.paragraphLines ps₂ := by
  induction ps₁ generalizing ps₂ with
  | nil =>
    cases ps₂ with
    | nil => rfl
    | cons q qs => simp at h
  | cons p ps ih =>
    cases ps₂ with
    | nil => simp at h
    | cons q qs =>
      simp only [List.map_cons, List.cons.injEq] at h
      rw [Dedupe.paragraphLines, Dedupe.paragraphLines, h.1, ih h.2]

lemma titleLine_inj {t₁ t₂ : Option Str}
    (h : Dedupe.titleLine t₁ = Dedupe.titleLine t₂) : t₁ = t₂ := by
  cases t₁ with
  | none =>
    cases t₂ with
    | none => rfl
    | some t => simp [Dedupe.titleLine] at h
  | some t =>
    cases t₂ with
    | none => simp [Dedupe.titleLine] at h
    | some t' =>
      simp only [Dedupe.titleLine, List.cons.injEq, true_and] at h
      rw [List.append_left_inj] at h
      rw [h]

/-- Claim C3: the content digest is built from exactly the heading lines (level
and text), the 100-character paragraph prefixes, and the title, in this fixed
order with newline separators: records agreeing on headings, paragraph
prefixes and title get equal digests, and records agreeing on headings and
paragraph prefixes but differing in title get different digests. -/
theorem get_content_hash_spec (c₁ c₂ : Content)
    (hh : c₁.headings = c₂.headings)
    (hp : c₁.paragraphs.map (fun p => p.take 100) =
          c₂.paragraphs.map (fun p => p.take 100)) :
    (c₁.title = c₂.title →
      Dedupe.get_content_hash c₁ = Dedupe.get_content_hash c₂) ∧
    (c₁.title ≠ c₂.title →
      Dedupe.get_content_hash c₁ ≠ Dedupe.get_content_hash c₂) := by
  constructor
  · intro ht
    rw [Dedupe.get_content_hash, Dedupe.get_content_hash, hh, ht,
      paragraphLines_congr hp]
  · intro hne hcontra
    rw [Dedupe.get_content_hash, Dedupe.get_content_hash, hh,
      paragraphLines_congr hp, List.append_assoc, List.append_assoc] at hcontra
    exact hne (titleLine_inj (List.append_cancel_left
      (List.append_cancel_left hcontra)))

/-- Claim C3 witness for `get_content_hash_spec`: two records agreeing except in
the title, whose digests indeed differ. -/
theorem get_content_hash_spec_witness :
    Dedupe.get_content_hash ⟨[], [], [], [], [], [], [], [], some "A".data⟩ ≠
      Dedupe.get_content_hash ⟨[], [], [], [], [], [], [], [], some "B".data⟩ :=
  (get_content_hash_spec
      ⟨[], [], [], [], [], [], [], [], some "A".data⟩
      ⟨[], [], [], [], [], [], [], [], some "B".data⟩ rfl rfl).2 (by decide)

/-! ### C8 — scoring and best-of-group selection -/

lemma pyMax_mem (key : Item → Nat) (x : Item) (xs : List Item) :
    Dedupe.pyMax key x xs ∈ x :: xs := by
  induction xs generalizing x with
  | nil => simp [Dedupe.pyMax]
  | cons y ys ih =>
    rw [Dedupe.pyMax]
    have h := ih (if key x < key y then y else x)
    rcases List.mem_cons.mp h with h' | h'
    · rw [h']
      split <;> simp
    · exact List.mem_cons_of_mem x (List.mem_cons_of_mem y h')

lemma pyMax_le (key : Item → Nat) (x : Item) (xs : List Item) :
    ∀ y ∈ x :: xs, key y ≤ key (Dedupe.pyMax key x xs) := by
  induction xs generalizing x with
  | nil =>
    intro y hy
    rcases List.mem_cons.mp hy with rfl | hy
    · simp [Dedupe.pyMax]
    · simp at hy
  | cons z zs ih =>
    intro y hy
    rw [Dedupe.pyMax]
    have hx : key x ≤ key (if key x < key z then z else x) := by
      split <;> omega
    have hz : key z ≤ key (if key x < key z then z else x) := by
      split <;> omega
    have hhead := ih (if key x < key z then z else x)
      (if key x < key z then z else x) (List.mem_cons_self _ _)
    rcases List.mem_cons.mp hy with rfl | hy'
    · omega
    · rcases List.mem_cons.mp hy' with rfl | hy''
      · omega
      · exact ih (if key x < key z then z else x) y (List.mem_cons_of_mem _ hy'')

lemma pyMax_first_max (key : Item → Nat) (x : Item) (xs : List Item) :
    ∃ l₁ l₂, x :: xs = l₁ ++ Dedupe.pyMax key x xs :: l₂ ∧
      ∀ y ∈ l₁, key y < key (Dedupe.pyMax key x xs) := by
  induction xs generalizing x with
  | nil => exact ⟨[], [], rfl, by simp⟩
  | cons z zs ih =>
    rw [Dedupe.pyMax]
    by_cases hxz : key x < key z
    · rw [if_pos hxz]
      obtain ⟨l₁, l₂, heq, hlt⟩ := ih z
      refine ⟨x :: l₁, l₂, by rw [List.cons_append, ← heq], ?_⟩
      intro y hy
      rcases List.mem_cons.mp hy with rfl | hy'
      · have hz := pyMax_le key z zs z (List.mem_cons_self _ _)
        omega
      · exact hlt y hy'
    · rw [if_neg hxz]
      obtain ⟨l₁, l₂, heq, hlt⟩ := ih x
      cases l₁ with
      | nil =>
        rw [List.nil_append, List.cons.injEq] at heq
        refine ⟨[], z :: zs, ?_, by simp⟩
        rw [List.nil_append, ← heq.1]
      | cons w l₁' =>
        rw [List.cons_append, List.cons.injEq] at heq
        obtain ⟨rfl, heq2⟩ := heq
        refine ⟨x :: z :: l₁', l₂, ?_, ?_⟩
        · rw [List.cons_append, List.cons_append, ← heq2]
        · intro y hy
          have hw := hlt x (List.mem_cons_self _ _)
          rcases List.mem_cons.mp hy with rfl | hy'
          · exact hw
          · rcases List.mem_cons.mp hy' with rfl | hy''
            · omega
            · exact hlt y (List.mem_cons_of_mem _ hy'')

/-- Claim C8: the richness score is exactly
`2×|headings| + 3×|paragraphs| + 2×|lists| + 1×|links| + 1×|images| +
5×|tables|`, and the group reduction `max(items, key=content_score)` keeps a
record of maximal score, with ties broken in favour of the first-encountered
record (every record strictly before the kept one scores strictly less). -/
theorem content_score_max_spec (x : Item) (xs : List Item) :
    (∀ i : Item, Dedupe.content_score i =
        2 * i.content.headings.length + 3 * i.content.paragraphs.length +
          2 * i.content.lists.length + i.content.links.length +
          i.content.images.length + 5 * i.content.tables.length) ∧
    Dedupe.pyMax Dedupe.content_score x xs ∈ x :: xs ∧
    (∀ y ∈ x :: xs, Dedupe.content_score y ≤
      Dedupe.content_score (Dedupe.pyMax Dedupe.content_score x xs)) ∧
    (∃ l₁ l₂, x :: xs = l₁ ++ Dedupe.pyMax Dedupe.content_score x xs :: l₂ ∧
      ∀ y ∈ l₁, Dedupe.content_score y <
        Dedupe.content_score (Dedupe.pyMax Dedupe.content_score x xs)) := by
  refine ⟨fun i => ?_, pyMax_mem _ x xs, pyMax_le _ x xs, pyMax_first_max _ x xs⟩
  rw [Dedupe.content_score]
  ring

/-! ### The Dedup & Scoring Engine (`deduplicate_data`) -/

namespace Dedupe

/-- Append an item to its key's group, or open a new group at the end
(`defaultdict(list)` behaviour: key order is first-encounter order, group
contents keep encounter order). -/
def groupInsert (k : Str) (i : Item) :
    List (Str × List Item) → List (Str × List Item)
  | [] => [(k, [i])]
  | (k', items) :: rest =>
    if k' = k then (k', items ++ [i]) :: rest
    else (k', items) :: groupInsert k i rest

/-- One step of the grouping loop of `deduplicate_data` (dedupe.py:62-65):
items without a `url` key are skipped. -/
def urlGroupStep (gs : List (Str × List Item)) (i : Item) :
    List (Str × List Item) :=
  match i.url with
  | none => gs
  | some u => groupInsert (normalize_url u) i gs

/-- The `url_groups` mapping of `deduplicate_data` (dedupe.py:61-65). -/
def url_groups (data : List Item) : List (Str × List Item) :=
  data.foldl urlGroupStep []

/-- The group-processing loop of `deduplicate_data` (dedupe.py:71-112):
`seen` is the running `seen_content_hashes` set, `acc` the `deduplicated`
output; a singleton group contributes its item, a larger group its
`max(items, key=content_score)`, and the chosen item is kept only when its
content hash is unseen. -/
def dedupGroups : List (Str × List Item) → List Str → List Item → List Item
  | [], _, acc => acc
  | (_, items) :: gs, seen, acc =>
    match items with
    | [] => dedupGroups gs seen acc
    | i :: rest =>
      let best := if rest = [] then i else pyMax content_score i rest
      if get_content_hash best.content ∈ seen then dedupGroups gs seen acc
      else dedupGroups gs (get_content_hash best.content :: seen) (acc ++ [best])

/-- `dedupe.deduplicate_data` (dedupe.py:40-128), the Dedup & Scoring
Engine (the file-writing and logging side effects are outside the model). -/
def deduplicate_data (data : List Item) : List Item :=
  dedupGroups (url_groups data) [] []

end Dedupe

/-- The normalized-URL key of an item (meaningful when `url` is present). -/
def hkey (i : Item) : Str :=
  match i.url with
  | some u => Dedupe.normalize_url u
  | none => []

/-- The content hash of an item (`get_content_hash(item.get('content', {}))`). -/
def hhash (i : Item) : Str :=
  Dedupe.get_content_hash i.content

/-- Shape of the engine's output: every record has a URL, normalized URLs are
pairwise distinct, and content hashes are pairwise distinct. -/
def EngineClean (l : List Item) : Prop :=
  (∀ i ∈ l, i.url.isSome) ∧ (l.map hkey).Nodup ∧ (l.map hhash).Nodup

/-- Shape of a group list produced by `url_groups`: keys are pairwise
distinct, groups are non-empty, and every member of a group carries a URL
normalizing to the group key. -/
def GroupsWF (gs : List (Str × List Item)) : Prop :=
  (gs.map Prod.fst).Nodup ∧
    ∀ g ∈ gs, g.2 ≠ [] ∧ ∀ i ∈ g.2, i.url.isSome ∧ hkey i = g.1

lemma nodup_append_one {α} {l : List α} {a : α} (h : l.Nodup) (ha : a ∉ l) :
    (l ++ [a]).Nodup := by
  rw [List.nodup_append]
  exact ⟨h, List.nodup_singleton a, fun x hx hx1 => ha ((List.mem_singleton.mp hx1) ▸ hx)⟩

lemma groupInsert_fst (k : Str) (i : Item) (gs : List (Str × List Item)) :
    (Dedupe.groupInsert k i gs).map Prod.fst =
      if k ∈ gs.map Prod.fst then gs.map Prod.fst
      else gs.map Prod.fst ++ [k] := by
  induction gs with
  | nil => simp [Dedupe.groupInsert]
  | cons g rest ih =>
    obtain ⟨k', items⟩ := g
    rw [Dedupe.groupInsert]
    by_cases hk : k' = k
    · subst hk
      simp
    · rw [if_neg hk, List.map_cons, List.map_cons, ih]
      by_cases hmem : k ∈ rest.map Prod.fst
      · rw [if_pos hmem, if_pos (List.mem_cons_of_mem _ hmem)]
      · rw [if_neg hmem, if_neg (show k ∉ k' :: rest.map Prod.fst from by
          intro hm
          rcases List.mem_cons.mp hm with h1 | h1
          · exact hk h1.symm
          · exact hmem h1), List.cons_append]

lemma groupInsert_prop (k : Str) (i : Item) (gs : List (Str × List Item))
    (hk : hkey i = k) (hi : i.url.isSome)
    (hgs : ∀ g ∈ gs, g.2 ≠ [] ∧ ∀ j ∈ g.2, j.url.isSome ∧ hkey j = g.1) :
    ∀ g ∈ Dedupe.groupInsert k i gs,
      g.2 ≠ [] ∧ ∀ j ∈ g.2, j.url.isSome ∧ hkey j = g.1 := by
  induction gs with
  | nil =>
    intro g hg
    simp only [Dedupe.groupInsert, List.mem_singleton] at hg
    subst hg
    exact ⟨by simp, fun j hj => by
      rw [List.mem_singleton] at hj
      subst hj
      exact ⟨hi, hk⟩⟩
  | cons g0 rest ih =>
    obtain ⟨k', items⟩ := g0
    intro g hg
    rw [Dedupe.groupInsert] at hg
    by_cases hkk : k' = k
    · rw [if_pos hkk] at hg
      rcases List.mem_cons.mp hg with hg0 | hg'
      · subst hg0
        have h0 := hgs (k', items) (List.mem_cons_self _ _)
        refine ⟨by simp, fun j hj => ?_⟩
        rcases List.mem_append.mp hj with hj' | hj'
        · exact h0.2 j hj'
        · rw [List.mem_singleton] at hj'
          subst hj'
          exact ⟨hi, hk.trans hkk.symm⟩
      · exact hgs g (List.mem_cons_of_mem _ hg')
    · rw [if_neg hkk] at hg
      rcases List.mem_cons.mp hg with hg0 | hg'
      · subst hg0
        exact hgs (k', items) (List.mem_cons_self _ _)
      · exact ih (fun g' hg'' => hgs g' (List.mem_cons_of_mem _ hg'')) g hg'

lemma urlGroupStep_wf (gs : List (Str × List Item)) (i : Item)
    (hgs : GroupsWF gs) : GroupsWF (Dedupe.urlGroupStep gs i) := by
  rw [Dedupe.urlGroupStep]
  cases hu : i.url with
  | none => exact hgs
  | some u =>
    have hk : hkey i = Dedupe.normalize_url u := by rw [hkey, hu]
    have hi : i.url.isSome := by rw [hu]; rfl
    constructor
    · rw [groupInsert_fst]
      split
      · exact hgs.1
      · exact nodup_append_one hgs.1 (by assumption)
    · exact groupInsert_prop _ i gs hk hi hgs.2

lemma url_groups_wf_aux (l : List Item) (gs : List (Str × List Item))
    (hgs : GroupsWF gs) : GroupsWF (l.foldl Dedupe.urlGroupStep gs) := by
  induction l generalizing gs with
  | nil => exact hgs
  | cons i rest ih => exact ih _ (urlGroupStep_wf gs i hgs)

lemma url_groups_wf (data : List Item) : GroupsWF (Dedupe.url_groups data) :=
  url_groups_wf_aux data [] ⟨List.nodup_nil, by simp⟩

lemma dedupGroups_cons_nil (k : Str) (gs : List (Str × List Item))
    (seen : List Str) (acc : List Item) :
    Dedupe.dedupGroups ((k, []) :: gs) seen acc =
      Dedupe.dedupGroups gs seen acc := rfl

lemma dedupGroups_cons (k : Str) (i : Item) (rest : List Item)
    (gs : List (Str × List Item)) (seen : List Str) (acc : List Item) :
    Dedupe.dedupGroups ((k, i :: rest) :: gs) seen acc =
      if Dedupe.get_content_hash
          (if rest = [] then i
           else Dedupe.pyMax Dedupe.content_score i rest).content ∈ seen
      then Dedupe.dedupGroups gs seen acc
      else Dedupe.dedupGroups gs
        (Dedupe.get_content_hash
          (if rest = [] then i
           else Dedupe.pyMax Dedupe.content_score i rest).content :: seen)
        (acc ++ [if rest = [] then i
                 else Dedupe.pyMax Dedupe.content_score i rest]) := rfl

lemma dedupGroups_clean (gs : List (Str × List Item)) (seen : List Str)
    (acc : List Item) (hgs : GroupsWF gs)
    (hacc_url : ∀ a ∈ acc, a.url.isSome)
    (hacc_keys : (acc.map hkey).Nodup)
    (hacc_disj : ∀ a ∈ acc, hkey a ∉ gs.map Prod.fst)
    (hacc_hash : (acc.map hhash).Nodup)
    (hacc_seen : ∀ a ∈ acc, hhash a ∈ seen) :
    EngineClean (Dedupe.dedupGroups gs seen acc) := by
  induction gs generalizing seen acc with
  | nil => exact ⟨hacc_url, hacc_keys, hacc_hash⟩
  | cons g gs' ih =>
    obtain ⟨k, items⟩ := g
    have hgs' : GroupsWF gs' :=
      ⟨(List.nodup_cons.mp (by simpa using hgs.1)).2,
        fun g' hg' => hgs.2 g' (List.mem_cons_of_mem _ hg')⟩
    have hknotin : k ∉ gs'.map Prod.fst :=
      (List.nodup_cons.mp (by simpa using hgs.1)).1
    cases items with
    | nil =>
      rw [dedupGroups_cons_nil]
      exact ih seen acc hgs' hacc_url hacc_keys
        (fun a ha => fun hm => hacc_disj a ha (by simp [hm]))
        hacc_hash hacc_seen
    | cons i rest =>
      rw [dedupGroups_cons]
      have hgrp := hgs.2 (k, i :: rest) (List.mem_cons_self _ _)
      have hbest_mem :
          (if rest = [] then i else Dedupe.pyMax Dedupe.content_score i rest)
            ∈ i :: rest := by
        split
        · exact List.mem_cons_self _ _
        · exact pyMax_mem _ i rest
      have hbest := hgrp.2 _ hbest_mem
      by_cases hseen : Dedupe.get_content_hash
          (if rest = [] then i
           else Dedupe.pyMax Dedupe.content_score i rest).content ∈ seen
      · rw [if_pos hseen]
        exact ih seen acc hgs' hacc_url hacc_keys
          (fun a ha => fun hm => hacc_disj a ha (by simp [hm]))
          hacc_hash hacc_seen
      · rw [if_neg hseen]
        refine ih _ _ hgs' ?_ ?_ ?_ ?_ ?_
        · intro a ha
          rcases List.mem_append.mp ha with ha' | ha'
          · exact hacc_url a ha'
          · rw [List.mem_singleton] at ha'
            subst ha'
            exact hbest.1
        · rw [List.map_append, List.map_singleton, hbest.2]
          refine nodup_append_one hacc_keys (fun hm => ?_)
          obtain ⟨a, ha, hka⟩ := List.mem_map.mp hm
          refine hacc_disj a ha ?_
          rw [List.map_cons]
          exact List.mem_cons.mpr (Or.inl hka)
        · intro a ha hm
          rcases List.mem_append.mp ha with ha' | ha'
          · refine hacc_disj a ha' ?_
            rw [List.map_cons]
            exact List.mem_cons_of_mem _ hm
          · rw [List.mem_singleton] at ha'
            subst ha'
            rw [hbest.2] at hm
            exact hknotin hm
        · rw [List.map_append, List.map_singleton]
          refine nodup_append_one hacc_hash (fun hm => ?_)
          obtain ⟨a, ha, hka⟩ := List.mem_map.mp hm
          refine hseen ?_
          have hin := hacc_seen a ha
          rw [hka] at hin
          exact hin
        · intro a ha
          rcases List.mem_append.mp ha with ha' | ha'
          · exact List.mem_cons_of_mem _ (hacc_seen a ha')
          · rw [List.mem_singleton] at ha'
            subst ha'
            exact List.mem_cons_self _ _

lemma deduplicate_data_clean (data : List Item) :
    EngineClean (Dedupe.deduplicate_data data) := by
  rw [Dedupe.deduplicate_data]
  exact dedupGroups_clean _ [] [] (url_groups_wf data)
    (by simp) (by simp) (by simp) (by simp) (by simp)

lemma groupInsert_of_notMem (k : Str) (i : Item) (gs : List (Str × List Item))
    (h : k ∉ gs.map Prod.fst) :
    Dedupe.groupInsert k i gs = gs ++ [(k, [i])] := by
  induction gs with
  | nil => rfl
  | cons g rest ih =>
    obtain ⟨k', items⟩ := g
    rw [Dedupe.groupInsert,
      if_neg (fun hk : k' = k => h (by simp [hk])), List.cons_append,
      ih (fun hm => h (by simp [hm]))]

lemma url_groups_of_clean_aux (l : List Item) (gs : List (Str × List Item))
    (hurl : ∀ i ∈ l, i.url.isSome) (hnd : (l.map hkey).Nodup)
    (hdisj : ∀ i ∈ l, hkey i ∉ gs.map Prod.fst) :
    l.foldl Dedupe.urlGroupStep gs = gs ++ l.map (fun i => (hkey i, [i])) := by
  induction l generalizing gs with
  | nil => simp
  | cons i rest ih =>
    have hu := hurl i (List.mem_cons_self _ _)
    obtain ⟨u, hu'⟩ := Option.isSome_iff_exists.mp hu
    have hki : hkey i = Dedupe.normalize_url u := by rw [hkey, hu']
    have hstep : Dedupe.urlGroupStep gs i = gs ++ [(hkey i, [i])] := by
      rw [Dedupe.urlGroupStep, hu']
      show Dedupe.groupInsert (Dedupe.normalize_url u) i gs = gs ++ [(hkey i, [i])]
      rw [← hki, groupInsert_of_notMem _ _ _ (hdisj i (List.mem_cons_self _ _))]
    have hnd0 := hnd
    rw [List.map_cons, List.nodup_cons] at hnd0
    have hdisj' : ∀ j ∈ rest, hkey j ∉ (gs ++ [(hkey i, [i])]).map Prod.fst := by
      intro j hj hm
      rw [List.map_append, List.mem_append] at hm
      rcases hm with hm1 | hm2
      · exact hdisj j (List.mem_cons_of_mem _ hj) hm1
      · rw [List.map_singleton, List.mem_singleton] at hm2
        have hm2' : hkey j = hkey i := hm2
        exact hnd0.1 (hm2' ▸ List.mem_map_of_mem hkey hj)
    rw [List.foldl_cons, hstep,
      ih (gs ++ [(hkey i, [i])])
        (fun j hj => hurl j (List.mem_cons_of_mem _ hj)) hnd0.2 hdisj',
      List.map_cons, List.append_assoc, List.singleton_append]

lemma dedupGroups_singletons (l : List Item) (seen : List Str)
    (acc : List Item)
    (hfresh : ∀ i ∈ l, hhash i ∉ seen)
    (hnd : (l.map hhash).Nodup) :
    Dedupe.dedupGroups (l.map (fun i => (hkey i, [i]))) seen acc = acc ++ l := by
  induction l generalizing seen acc with
  | nil => simp [Dedupe.dedupGroups]
  | cons i rest ih =>
    have hnd0 := hnd
    rw [List.map_cons, List.nodup_cons] at hnd0
    rw [List.map_cons, dedupGroups_cons]
    rw [if_neg (show ¬(Dedupe.get_content_hash
        (if ([] : List Item) = [] then i
         else Dedupe.pyMax Dedupe.content_score i []).content ∈ seen) from
      fun hm => hfresh i (List.mem_cons_self _ _) (by simpa [hhash] using hm))]
    have hfresh' : ∀ j ∈ rest,
        hhash j ∉ Dedupe.get_content_hash
          (if ([] : List Item) = [] then i
           else Dedupe.pyMax Dedupe.content_score i []).content :: seen := by
      intro j hj hm
      rcases List.mem_cons.mp hm with hm' | hm'
      · refine hnd0.1 ?_
        have hji : hhash j = hhash i := by simpa [hhash] using hm'
        exact hji ▸ List.mem_map_of_mem hhash hj
      · exact hfresh j (List.mem_cons_of_mem _ hj) hm'
    rw [ih _ _ hfresh' hnd0.2, List.append_assoc, List.singleton_append]
    simp

/-- Claim C9: the Dedup & Scoring Engine is idempotent — applying
`deduplicate_data` to its own output returns that output unchanged, same
records in the same order. -/
theorem deduplicate_data_idem (data : List Item) :
    Dedupe.deduplicate_data (Dedupe.deduplicate_data data) =
      Dedupe.deduplicate_data data := by
  obtain ⟨hurl, hkeys, hhashes⟩ := deduplicate_data_clean data
  conv_lhs => rw [Dedupe.deduplicate_data]
  rw [Dedupe.url_groups,
    url_groups_of_clean_aux _ [] hurl hkeys (by simp),
    List.nil_append,
    dedupGroups_singletons _ [] [] (by simp) hhashes,
    List.nil_append]

/-! ### C1 — the spider's final output merge -/

/-- The raw URL string of a record, `item.get('url', '')` — the sort and
dedup key of the spider's output writer (NOT normalized). -/
def rawUrl (i : Item) : Str :=
  match i.url with
  | some u => urlunparse u
  | none => []

/-- Python string comparison `<=`: lexicographic by code point. -/
def lexLe : Str → Str → Bool
  | [], _ => true
  | _ :: _, [] => false
  | a :: as, b :: bs =>
    if a.toNat < b.toNat then true
    else if b.toNat < a.toNat then false
    else lexLe as bs

/-- The `sort` key order on records: raw URL, lexicographically. -/
def itemLe (a b : Item) : Prop := lexLe (rawUrl a) (rawUrl b) = true

instance : DecidableRel itemLe := fun a b =>
  inferInstanceAs (Decidable (lexLe (rawUrl a) (rawUrl b) = true))

/-- The raw-URL dedup loop of `_write_sorted_deduplicated_output`
(maxroll.py:359-366): keep the first record seen for each raw `url` value. -/
def uniqueByRawUrl : List Item → List Str → List Item
  | [], _ => []
  | i :: rest, seen =>
    if rawUrl i ∈ seen then uniqueByRawUrl rest seen
    else i :: uniqueByRawUrl rest (rawUrl i :: seen)

namespace Maxroll

/-- `MaxrollSpider._write_sorted_deduplicated_output` (maxroll.py:352-381):
on spider close, deduplicate the collected records by raw URL string (first
occurrence wins), sort by raw URL, and write one JSON line per record.
`list.sort(key=...)` is a stable sort by the raw-URL key; after the dedup the
keys are pairwise distinct, so every sort by this key produces the same list
and it is modelled as insertion sort.  An empty collection writes nothing. -/
def write_sorted_deduplicated_output (collected : List Item) : List Item :=
  if collected = [] then []
  else List.insertionSort itemLe (uniqueByRawUrl collected [])

end Maxroll

lemma lexLe_total (a b : Str) : lexLe a b = true ∨ lexLe b a = true := by
  induction a generalizing b with
  | nil => left; rfl
  | cons x xs ih =>
    cases b with
    | nil => right; rfl
    | cons y ys =>
      rw [lexLe, lexLe]
      by_cases hxy : x.toNat < y.toNat
      · left
        rw [if_pos hxy]
      · by_cases hyx : y.toNat < x.toNat
        · right
          rw [if_pos hyx]
        · rw [if_neg hxy, if_neg hyx, if_neg hyx, if_neg hxy]
          exact ih ys

lemma lexLe_trans {a b c : Str} (hab : lexLe a b = true)
    (hbc : lexLe b c = true) : lexLe a c = true := by
  induction a generalizing b c with
  | nil => rfl
  | cons x xs ih =>
    cases b with
    | nil => exact absurd hab (by rw [lexLe]; simp)
    | cons y ys =>
      cases c with
      | nil => exact absurd hbc (by rw [lexLe]; simp)
      | cons z zs =>
        rw [lexLe] at hab hbc ⊢
        by_cases hxy : x.toNat < y.toNat <;> by_cases hyz : y.toNat < z.toNat
        · rw [if_pos (by omega)]
        · rw [if_neg hyz] at hbc
          by_cases hzy : z.toNat < y.toNat
          · rw [if_pos hzy] at hbc
            exact absurd hbc (by simp)
          · rw [if_pos (by omega)]
        · rw [if_neg hxy] at hab
          by_cases hyx : y.toNat < x.toNat
          · rw [if_pos hyx] at hab
            exact absurd hab (by simp)
          · rw [if_pos (by omega)]
        · rw [if_neg hxy] at hab
          by_cases hyx : y.toNat < x.toNat
          · rw [if_pos hyx] at hab
            exact absurd hab (by simp)
          · rw [if_neg hyx] at hab
            rw [if_neg hyz] at hbc
            by_cases hzy : z.toNat < y.toNat
            · rw [if_pos hzy] at hbc
              exact absurd hbc (by simp)
            · rw [if_neg hzy] at hbc
              rw [if_neg (by omega), if_neg (by omega)]
              exact ih hab hbc

lemma uniqueByRawUrl_sub (l : List Item) :
    ∀ seen, ∀ i ∈ uniqueByRawUrl l seen, i ∈ l := by
  induction l with
  | nil => intro seen i hi; exact absurd hi (by rw [uniqueByRawUrl]; simp)
  | cons j rest ih =>
    intro seen i hi
    rw [uniqueByRawUrl] at hi
    by_cases hm : rawUrl j ∈ seen
    · rw [if_pos hm] at hi
      exact List.mem_cons_of_mem _ (ih seen i hi)
    · rw [if_neg hm] at hi
      rcases List.mem_cons.mp hi with rfl | hi'
      · exact List.mem_cons_self _ _
      · exact List.mem_cons_of_mem _ (ih _ i hi')

lemma uniqueByRawUrl_keys (l : List Item) :
    ∀ seen, ((uniqueByRawUrl l seen).map rawUrl).Nodup ∧
      ∀ k ∈ (uniqueByRawUrl l seen).map rawUrl, k ∉ seen := by
  induction l with
  | nil =>
    intro seen
    rw [uniqueByRawUrl]
    exact ⟨List.nodup_nil, by simp⟩
  | cons j rest ih =>
    intro seen
    rw [uniqueByRawUrl]
    by_cases hm : rawUrl j ∈ seen
    · rw [if_pos hm]
      exact ih seen
    · rw [if_neg hm, List.map_cons]
      obtain ⟨ihn, ihs⟩ := ih (rawUrl j :: seen)
      refine ⟨List.nodup_cons.mpr ⟨?_, ihn⟩, ?_⟩
      · intro hcontra
        exact ihs _ hcontra (List.mem_cons_self _ _)
      · intro k hk
        rcases List.mem_cons.mp hk with rfl | hk'
        · exact hm
        · exact fun hks => ihs k hk' (List.mem_cons_of_mem _ hks)

lemma uniqueByRawUrl_complete (l : List Item) :
    ∀ seen, ∀ i ∈ l,
      rawUrl i ∈ seen ∨ rawUrl i ∈ (uniqueByRawUrl l seen).map rawUrl := by
  induction l with
  | nil => intro seen i hi; exact absurd hi (by simp)
  | cons j rest ih =>
    intro seen i hi
    rw [uniqueByRawUrl]
    by_cases hm : rawUrl j ∈ seen
    · rw [if_pos hm]
      rcases List.mem_cons.mp hi with rfl | hi'
      · exact Or.inl hm
      · exact ih seen i hi'
    · rw [if_neg hm, List.map_cons]
      rcases List.mem_cons.mp hi with rfl | hi'
      · exact Or.inr (List.mem_cons_self _ _)
      · rcases ih (rawUrl j :: seen) i hi' with hseen | hmap
        · rcases List.mem_cons.mp hseen with heq | hseen'
          · exact Or.inr (heq ▸ List.mem_cons_self _ _)
          · exact Or.inl hseen'
        · exact Or.inr (List.mem_cons_of_mem _ hmap)

/-- Items for the C1 counterexample: two records whose URLs differ only by
fragment and whose contents coincide. -/
def cxItemA : Item :=
  { url := some (Url.mk "https".data "maxroll.gg".data "/d4/a".data [] [] []),
    title := some "T".data,
    content := { paragraphs := ["Hello world paragraph".data] } }

def cxItemB : Item :=
  { cxItemA with
    url := some (Url.mk "https".data "maxroll.gg".data "/d4/a".data [] []
      "sec".data) }

/-- Claim C1 counterexample: `_write_sorted_deduplicated_output` deduplicates
by raw URL string only — it never normalizes, scores, or hashes.  On a
collection of two records whose URLs differ only by fragment (same normalized
URL, same content digest) it writes both records, so the written output is
deduplicated neither per normalized URL nor per content digest. -/
theorem write_output_no_pipeline_cx :
    Maxroll.write_sorted_deduplicated_output [cxItemA, cxItemB] =
        [cxItemA, cxItemB] ∧
    cxItemA ≠ cxItemB ∧
    cxItemA.url.map Maxroll.normalizeUrl = cxItemB.url.map Maxroll.normalizeUrl ∧
    Dedupe.get_content_hash cxItemA.content =
      Dedupe.get_content_hash cxItemB.content := by
  decide

/-- Claim C1 (amended): when the traversal controller closes, the final merge
runs once over the in-memory collection and (a) keeps at most one record per
raw URL string — the first-encountered one — and (b) sorts the output by raw
URL; every output record comes from the collection and every collected raw
URL is represented.  The merge performs no URL normalization, no scoring and
no content-digest filtering (see `write_output_no_pipeline_cx`), so
uniqueness holds per raw URL only. -/
theorem write_output_spec (collected : List Item) :
    ((Maxroll.write_sorted_deduplicated_output collected).map rawUrl).Nodup ∧
    List.Sorted itemLe (Maxroll.write_sorted_deduplicated_output collected) ∧
    (∀ i ∈ Maxroll.write_sorted_deduplicated_output collected, i ∈ collected) ∧
    (∀ i ∈ collected,
      rawUrl i ∈ (Maxroll.write_sorted_deduplicated_output collected).map rawUrl) := by
  haveI htot : IsTotal Item itemLe := ⟨fun a b => lexLe_total _ _⟩
  haveI htrans : IsTrans Item itemLe := ⟨fun a b c => lexLe_trans⟩
  rw [Maxroll.write_sorted_deduplicated_output]
  by_cases hnil : collected = []
  · rw [if_pos hnil]
    subst hnil
    exact ⟨List.nodup_nil, List.sorted_nil, by simp, by simp⟩
  · rw [if_neg hnil]
    have hperm := List.perm_insertionSort itemLe (uniqueByRawUrl collected [])
    refine ⟨?_, List.sorted_insertionSort itemLe _, ?_, ?_⟩
    · exact ((hperm.map rawUrl).nodup_iff).mpr (uniqueByRawUrl_keys collected []).1
    · intro i hi
      exact uniqueByRawUrl_sub collected [] i (hperm.mem_iff.mp hi)
    · intro i hi
      rcases uniqueByRawUrl_complete collected [] i hi with hs | hs
      · exact absurd hs (by simp)
      · exact ((hperm.map rawUrl).mem_iff).mpr hs

/-! ### The traversal controller (maxroll.py `parse` and its helpers) -/

/-- An `<a href=...>` anchor as `parse` sees it: the raw `href` attribute and
the absolute URL that `urljoin(response.url, href)` resolves it to (URL
resolution is an external collaborator, so the anchor carries its result),
plus the anchor text when present. -/
structure Anchor where
  href : Str
  abs : Url
  text : Option Str
deriving DecidableEq, Repr

/-- An `<img src=...>` element: raw `src`, its resolved absolute URL, and the
`alt` attribute when present. -/
structure ImageTag where
  src : Str
  abs : Url
  alt : Option Str
deriving DecidableEq, Repr

/-- A fetched page as exposed to `parse` through the framework's selectors
(CSS/XPath selection is an external collaborator; each field holds the raw
results of the corresponding selector query, in document order).  A JSON-LD
block carries its parse result — `none` models a `json.JSONDecodeError`. -/
structure Response where
  url : Url
  titleText : Option Str
  h1Text : Option Str
  headingTexts : List (Nat × Str)
  paraTexts : List Str
  ulItems : List (List Str)
  anchors : List Anchor
  images : List ImageTag
  metaTags : List (Option Str × Option Str)
  jsonLdBlocks : List (Option Str)
  tableCells : List (List (List (Option Str)))
  codeTexts : List Str
deriving DecidableEq, Repr

/-- The characters Python's `str.strip()` removes. -/
def isPySpace (c : Char) : Bool :=
  c = ' ' || c = '\t' || c = '\n' || c = '\r' || c = '\x0b' || c = '\x0c'

/-- Python `s.strip()`. -/
def pyStrip (s : Str) : Str :=
  ((s.dropWhile isPySpace).reverse.dropWhile isPySpace).reverse

/-- Python dict assignment `meta[name] = content`: overwrite an existing key
in place, append a new key at the end (insertion order, last write wins). -/
def dictSet (m : List (Str × Str)) (k v : Str) : List (Str × Str) :=
  match m with
  | [] => [(k, v)]
  | (k', v') :: rest =>
    if k' = k then (k', v) :: rest else (k', v') :: dictSet rest k v

namespace Maxroll

/-- The spider's mutable attributes (maxroll.py:19-55). -/
structure SpiderState where
  filter_depth : Nat
  max_depth : Option Nat
  max_pages : Nat
  path_filter : Option Str
  pages_processed : Nat := 0
  pages_filtered : Nat := 0
  depth_exceeded : Nat := 0
  estimated_total_pages : Nat := 0
  current_page_url : Str := []
  urls_found : List Str := []
  urls_scraped : List Str := []
  duplicate_urls_skipped : Nat := 0
  collected_data : List Item := []
deriving DecidableEq, Repr

/-- Python `set.add` on a set represented as a duplicate-free list. -/
def setAdd (s : List Str) (u : Str) : List Str :=
  if u ∈ s then s else u :: s

/-- Pre-mark one seed URL as both discovered and scraped
(maxroll.py:52-55). -/
def seedMark (s : SpiderState) (u : Url) : SpiderState :=
  { s with urls_found := setAdd s.urls_found (normalizeUrl u),
           urls_scraped := setAdd s.urls_scraped (normalizeUrl u) }

/-- `MaxrollSpider.__init__` (maxroll.py:11-66): store the configuration,
derive the path filter from the first start URL when `filter_depth > 0`, and
pre-mark every seed as both discovered and scraped before the first fetch. -/
def initSpider (start_urls : List Url) (filter_depth : Nat)
    (max_depth : Option Nat) (max_pages : Nat) : SpiderState :=
  start_urls.foldl seedMark
    { filter_depth := filter_depth, max_depth := max_depth,
      max_pages := max_pages,
      path_filter :=
        match start_urls with
        | [] => none
        | u :: _ =>
          if 0 < filter_depth then getPathFilter filter_depth u else none }

/-- The substrings that disqualify a resolved URL (maxroll.py:316):
`'#', 'javascript:', 'mailto:', '.pdf', '.jpg', '.png', '.gif', '.webp',
'.svg'`. -/
def skipTokens : List Str :=
  ["#".data, "javascript:".data, "mailto:".data, ".pdf".data, ".jpg".data,
   ".png".data, ".gif".data, ".webp".data, ".svg".data]

/-- Python substring containment `needle in hay`. -/
def containsSub (needle : Str) : Str → Bool
  | [] => needle.isPrefixOf []
  | c :: rest => needle.isPrefixOf (c :: rest) || containsSub needle rest

/-- The link admission test shared by `parse` (maxroll.py:315-316) and
`_estimate_total_pages` (maxroll.py:129-130): the resolved URL must start
with `https://maxroll.gg` and contain none of the skip tokens. -/
def linkAdmissible (full : Str) : Bool :=
  "https://maxroll.gg".data.isPrefixOf full
    && !(skipTokens.any (fun t => containsSub t full))

/-- One anchor of the follow loop of `parse` (maxroll.py:305-338): skip empty
`href`s and inadmissible URLs outright; otherwise normalize, record in
`urls_found` (if new), scope-filter (counting filtered links), dedup against
`urls_scraped` (counting duplicates), and on success mark scraped *before*
yielding the follow request at `depth + 1`. -/
def processLink (s : SpiderState) (depth : Nat) (a : Anchor) :
    SpiderState × Option (Url × Nat) :=
  if a.href = [] then (s, none)
  else if !(linkAdmissible (urlunparse a.abs)) then (s, none)
  else
    let n := normalizeUrl a.abs
    let s1 := { s with urls_found := setAdd s.urls_found n }
    if matchesFilter s.filter_depth s.path_filter a.abs then
      if n ∈ s1.urls_scraped then
        ({ s1 with duplicate_urls_skipped := s1.duplicate_urls_skipped + 1 },
          none)
      else
        ({ s1 with urls_scraped := setAdd s1.urls_scraped n },
          some (a.abs, depth + 1))
    else
      ({ s1 with pages_filtered := s1.pages_filtered + 1 }, none)

/-- The whole follow loop of `parse`, accumulating the yielded requests. -/
def followLinks (depth : Nat) (st : SpiderState × List (Url × Nat))
    (anchors : List Anchor) : SpiderState × List (Url × Nat) :=
  anchors.foldl
    (fun acc a =>
      let r := processLink acc.1 depth a
      (r.1, acc.2 ++ r.2.toList)) st

/-- The `potential_links` count of `_estimate_total_pages`
(maxroll.py:122-135): anchors with an `href` whose resolved URL is admissible
and in scope. -/
def potentialLinks (s : SpiderState) (resp : Response) : Nat :=
  (((resp.anchors.filter (fun a => a.href ≠ [])).filter
    (fun a => linkAdmissible (urlunparse a.abs))).filter
    (fun a => matchesFilter s.filter_depth s.path_filter a.abs)).length

/-- The estimate `_estimate_total_pages` derives from the potential-link
count (maxroll.py:139-147); `if self.max_depth and self.max_depth > 1` is
Python truthiness, so both `None` and `0` take the no-depth-limit branch. -/
def pageEstimate (maxDepth : Option Nat) (pot : Nat) : Nat :=
  match maxDepth with
  | some d => if 1 < d then min (max pot 5 * d) 100 else min (max pot 5 * 2) 50
  | none => min (max pot 5 * 2) 50

/-- `_estimate_total_pages` (maxroll.py:119-149): on the first processed page
only, estimate the crawl size from the admissible in-scope links. -/
def estimateTotalPages (s : SpiderState) (resp : Response) : SpiderState :=
  if s.pages_processed = 1 then
    if 0 < potentialLinks s resp then
      { s with estimated_total_pages := pageEstimate s.max_depth (potentialLinks s resp) }
    else s
  else s

/-- The content-extraction section of `parse` (maxroll.py:184-297): build the
record from the page's selector results and Python's truthiness/strip rules.
Note the extracted `title` lives at the top level of the record, not inside
`content`. -/
def extractRecord (resp : Response) : Item :=
  let title :=
    match resp.titleText with
    | none => resp.h1Text
    | some t => if t = [] then resp.h1Text else some t
  { url := some resp.url,
    title := title,
    content :=
      { headings := resp.headingTexts.map (fun lt => ⟨lt.1, pyStrip lt.2⟩),
        paragraphs := (resp.paraTexts.map pyStrip).filter
          (fun t => t ≠ [] && 10 < t.length),
        lists := (resp.ulItems.map (fun ul =>
          (ul.map pyStrip).filter (fun t => t ≠ []))).filter
          (fun l => l ≠ []),
        links := (resp.anchors.filter
          (fun a => a.href ≠ [] && a.text.getD [] ≠ [])).map
          (fun a => ⟨urlunparse a.abs, pyStrip (a.text.getD [])⟩),
        images := (resp.images.filter (fun im => im.src ≠ [])).map
          (fun im => ⟨urlunparse im.abs, im.alt.getD []⟩),
        tables := ((resp.tableCells.map (fun tbl =>
          (tbl.map (fun row => row.filterMap (fun cell =>
            match cell with
            | none => none
            | some t => if t = [] then none else some (pyStrip t)))).filter
            (fun row => row ≠ []))).filter (fun tbl => tbl ≠ [])),
        code_blocks := (resp.codeTexts.map pyStrip).filter (fun t => t ≠ []),
        structured_data := resp.jsonLdBlocks.filterMap id,
        title := none },
    metadata := resp.metaTags.foldl (fun m nc =>
      match nc with
      | (some n, some c) => if n = [] || c = [] then m else dictSet m n c
      | _ => m) [] }

/-- `parse` (maxroll.py:151-341): the per-page branch.  Hard stops first —
page cap (untouched state, no requests), then depth bound (only the
depth-exceeded counter moves) — then progress bookkeeping, estimation,
extraction into the in-memory collection, and the follow loop.  Returns the
updated spider state and the yielded follow requests with their depth. -/
def parse (s : SpiderState) (resp : Response) (depth : Nat) :
    SpiderState × List (Url × Nat) :=
  if s.max_pages ≤ s.pages_processed then (s, [])
  else if (match s.max_depth with
           | some d => decide (d < depth)
           | none => false) then
    ({ s with depth_exceeded := s.depth_exceeded + 1 }, [])
  else
    let s1 := { s with current_page_url := urlunparse resp.url,
                       pages_processed := s.pages_processed + 1 }
    let s2 := estimateTotalPages s1 resp
    let s3 := { s2 with
      collected_data := s2.collected_data ++ [extractRecord resp] }
    followLinks depth (s3, []) resp.anchors

/-- The crawl driver: the fetch engine (an external collaborator) serves each
queued request in order and hands the response to `parse`, queueing the
yielded requests; `fetch` maps a URL to the page the site serves for it.
Fuel bounds the run. -/
def crawl (fetch : Url → Response) :
    Nat → SpiderState → List (Url × Nat) → SpiderState
  | 0, s, _ => s
  | _ + 1, s, [] => s
  | fuel + 1, s, (u, d) :: q =>
    let r := parse s (fetch u) d
    crawl fetch fuel r.1 (q ++ r.2)

/-- One crawl run: initialize from the seeds, then drive the queue seeded
with the start URLs at depth 0. -/
def runSpider (fetch : Url → Response) (start_urls : List Url)
    (filter_depth : Nat) (max_depth : Option Nat) (max_pages : Nat)
    (fuel : Nat) : SpiderState :=
  crawl fetch fuel (initSpider start_urls filter_depth max_depth max_pages)
    (start_urls.map (fun u => (u, 0)))

/-- The number of driver steps at which the normalized URL `u` newly enters
the scraped set, along the run from state `s` with queue `q`. -/
def scrapedAddCount (fetch : Url → Response) (u : Str) :
    Nat → SpiderState → List (Url × Nat) → Nat
  | 0, _, _ => 0
  | _ + 1, _, [] => 0
  | fuel + 1, s, (v, d) :: q =>
    let r := parse s (fetch v) d
    (if u ∉ s.urls_scraped ∧ u ∈ r.1.urls_scraped then 1 else 0) +
      scrapedAddCount fetch u fuel r.1 (q ++ r.2)

end Maxroll

/-! ### C5 — frontier invariants -/

lemma setAdd_mem {s : List Str} {u v : Str} :
    v ∈ Maxroll.setAdd s u ↔ v = u ∨ v ∈ s := by
  rw [Maxroll.setAdd]
  split
  · rename_i hu
    constructor
    · exact fun h => Or.inr h
    · rintro (rfl | h)
      · exact hu
      · exact h
  · exact List.mem_cons

lemma setAdd_nodup {s : List Str} {u : Str} (h : s.Nodup) :
    (Maxroll.setAdd s u).Nodup := by
  rw [Maxroll.setAdd]
  split
  · exact h
  · rename_i hu
    exact List.nodup_cons.mpr ⟨hu, h⟩

/-- The frontier bookkeeping invariant: `urls_scraped ⊆ urls_found`, both
duplicate-free. -/
def FrontierInv (s : Maxroll.SpiderState) : Prop :=
  (∀ u ∈ s.urls_scraped, u ∈ s.urls_found) ∧
    s.urls_scraped.Nodup ∧ s.urls_found.Nodup

lemma frontierInv_of_eq {s s' : Maxroll.SpiderState}
    (h1 : s'.urls_found = s.urls_found)
    (h2 : s'.urls_scraped = s.urls_scraped) (h : FrontierInv s) :
    FrontierInv s' := by
  rw [FrontierInv, h1, h2]
  exact h

lemma processLink_inv {s : Maxroll.SpiderState} (depth : Nat) (a : Anchor)
    (h : FrontierInv s) : FrontierInv (Maxroll.processLink s depth a).1 := by
  rw [Maxroll.processLink]
  split
  · exact h
  · split
    · exact h
    · simp only []
      split
      · split
        · exact ⟨fun u hu => setAdd_mem.mpr (Or.inr (h.1 u hu)), h.2.1,
            setAdd_nodup h.2.2⟩
        · refine ⟨?_, setAdd_nodup h.2.1, setAdd_nodup h.2.2⟩
          intro u hu
          rcases setAdd_mem.mp hu with rfl | hu'
          · exact setAdd_mem.mpr (Or.inl rfl)
          · exact setAdd_mem.mpr (Or.inr (h.1 u hu'))
      · exact ⟨fun u hu => setAdd_mem.mpr (Or.inr (h.1 u hu)), h.2.1,
          setAdd_nodup h.2.2⟩

lemma processLink_scraped_mono {s : Maxroll.SpiderState} (depth : Nat)
    (a : Anchor) {u : Str} (h : u ∈ s.urls_scraped) :
    u ∈ (Maxroll.processLink s depth a).1.urls_scraped := by
  rw [Maxroll.processLink]
  split
  · exact h
  · split
    · exact h
    · simp only []
      split
      · split
        · exact h
        · exact setAdd_mem.mpr (Or.inr h)
      · exact h

lemma followLinks_inv (depth : Nat) (anchors : List Anchor) :
    ∀ st : Maxroll.SpiderState × List (Url × Nat), FrontierInv st.1 →
      FrontierInv (Maxroll.followLinks depth st anchors).1 := by
  induction anchors with
  | nil => exact fun st h => h
  | cons a rest ih =>
    intro st h
    rw [Maxroll.followLinks, List.foldl_cons, ← Maxroll.followLinks]
    exact ih _ (processLink_inv depth a h)

lemma followLinks_scraped_mono (depth : Nat) (anchors : List Anchor) :
    ∀ (st : Maxroll.SpiderState × List (Url × Nat)) {u : Str},
      u ∈ st.1.urls_scraped →
      u ∈ (Maxroll.followLinks depth st anchors).1.urls_scraped := by
  induction anchors with
  | nil => exact fun st _ h => h
  | cons a rest ih =>
    intro st u h
    rw [Maxroll.followLinks, List.foldl_cons, ← Maxroll.followLinks]
    exact ih _ (processLink_scraped_mono depth a h)

lemma estimateTotalPages_urls (s : Maxroll.SpiderState) (resp : Response) :
    (Maxroll.estimateTotalPages s resp).urls_found = s.urls_found ∧
    (Maxroll.estimateTotalPages s resp).urls_scraped = s.urls_scraped ∧
    (Maxroll.estimateTotalPages s resp).collected_data = s.collected_data := by
  rw [Maxroll.estimateTotalPages]
  by_cases h1 : s.pages_processed = 1
  · rw [if_pos h1]
    by_cases h2 : 0 < Maxroll.potentialLinks s resp
    · rw [if_pos h2]
      exact ⟨rfl, rfl, rfl⟩
    · rw [if_neg h2]
      exact ⟨rfl, rfl, rfl⟩
  · rw [if_neg h1]
    exact ⟨rfl, rfl, rfl⟩

lemma parse_inv (s : Maxroll.SpiderState) (resp : Response) (depth : Nat)
    (h : FrontierInv s) : FrontierInv (Maxroll.parse s resp depth).1 := by
  rw [Maxroll.parse]
  split
  · exact h
  · split
    · exact h
    · refine followLinks_inv depth resp.anchors _ ?_
      refine frontierInv_of_eq ?_ ?_ h
      · exact (estimateTotalPages_urls _ resp).1
      · exact (estimateTotalPages_urls _ resp).2.1

lemma parse_scraped_mono (s : Maxroll.SpiderState) (resp : Response)
    (depth : Nat) {u : Str} (h : u ∈ s.urls_scraped) :
    u ∈ (Maxroll.parse s resp depth).1.urls_scraped := by
  rw [Maxroll.parse]
  split
  · exact h
  · split
    · exact h
    · refine followLinks_scraped_mono depth resp.anchors _ ?_
      show u ∈ (Maxroll.estimateTotalPages _ resp).urls_scraped
      rw [(estimateTotalPages_urls _ resp).2.1]
      exact h

lemma crawl_inv (fetch : Url → Response) :
    ∀ (fuel : Nat) (s : Maxroll.SpiderState) (q : List (Url × Nat)),
      FrontierInv s → FrontierInv (Maxroll.crawl fetch fuel s q) := by
  intro fuel
  induction fuel with
  | zero => exact fun s q h => h
  | succ n ih =>
    intro s q h
    cases q with
    | nil => exact h
    | cons p q' =>
      obtain ⟨u, d⟩ := p
      exact ih _ _ (parse_inv s (fetch u) d h)

lemma seedMark_fold_mem (l : List Url) :
    ∀ (s : Maxroll.SpiderState) (v : Str),
      (v ∈ s.urls_found → v ∈ (l.foldl Maxroll.seedMark s).urls_found) ∧
      (v ∈ s.urls_scraped → v ∈ (l.foldl Maxroll.seedMark s).urls_scraped) := by
  induction l with
  | nil => exact fun s v => ⟨id, id⟩
  | cons u0 rest ih =>
    intro s v
    rw [List.foldl_cons]
    constructor
    · intro hv
      exact (ih _ v).1 (setAdd_mem.mpr (Or.inr hv))
    · intro hv
      exact (ih _ v).2 (setAdd_mem.mpr (Or.inr hv))

lemma seedMark_fold_seeds (l : List Url) :
    ∀ s : Maxroll.SpiderState, ∀ seed ∈ l,
      Maxroll.normalizeUrl seed ∈ (l.foldl Maxroll.seedMark s).urls_found ∧
      Maxroll.normalizeUrl seed ∈ (l.foldl Maxroll.seedMark s).urls_scraped := by
  induction l with
  | nil => intro s seed h; exact absurd h (by simp)
  | cons u0 rest ih =>
    intro s seed hseed
    rw [List.foldl_cons]
    rcases List.mem_cons.mp hseed with rfl | hseed'
    · constructor
      · exact (seedMark_fold_mem rest _ _).1 (setAdd_mem.mpr (Or.inl rfl))
      · exact (seedMark_fold_mem rest _ _).2 (setAdd_mem.mpr (Or.inl rfl))
    · exact ih _ seed hseed'

lemma initSpider_seeds (start_urls : List Url) (fd : Nat) (md : Option Nat)
    (mp : Nat) :
    ∀ seed ∈ start_urls,
      Maxroll.normalizeUrl seed ∈
        (Maxroll.initSpider start_urls fd md mp).urls_found ∧
      Maxroll.normalizeUrl seed ∈
        (Maxroll.initSpider start_urls fd md mp).urls_scraped :=
  seedMark_fold_seeds start_urls _

lemma seedMark_fold_inv (l : List Url) :
    ∀ s : Maxroll.SpiderState, FrontierInv s →
      FrontierInv (l.foldl Maxroll.seedMark s) := by
  induction l with
  | nil => exact fun s h => h
  | cons u0 rest ih =>
    intro s h
    rw [List.foldl_cons]
    refine ih _ ⟨?_, setAdd_nodup h.2.1, setAdd_nodup h.2.2⟩
    intro v hv
    rcases setAdd_mem.mp hv with rfl | hv'
    · exact setAdd_mem.mpr (Or.inl rfl)
    · exact setAdd_mem.mpr (Or.inr (h.1 v hv'))

lemma initSpider_inv (start_urls : List Url) (fd : Nat) (md : Option Nat)
    (mp : Nat) : FrontierInv (Maxroll.initSpider start_urls fd md mp) :=
  seedMark_fold_inv start_urls _
    ⟨fun u hu => absurd hu (List.not_mem_nil u), List.nodup_nil, List.nodup_nil⟩

lemma nodup_subset_length_le {l₁ l₂ : List Str} (h₁ : l₁.Nodup)
    (h₂ : l₂.Nodup) (hsub : ∀ u ∈ l₁, u ∈ l₂) : l₁.length ≤ l₂.length := by
  rw [← List.toFinset_card_of_nodup h₁, ← List.toFinset_card_of_nodup h₂]
  refine Finset.card_le_card ?_
  intro x hx
  rw [List.mem_toFinset] at hx ⊢
  exact hsub x hx

lemma scrapedAddCount_of_mem (fetch : Url → Response) (u : Str) :
    ∀ (fuel : Nat) (s : Maxroll.SpiderState) (q : List (Url × Nat)),
      u ∈ s.urls_scraped →
      Maxroll.scrapedAddCount fetch u fuel s q = 0 := by
  intro fuel
  induction fuel with
  | zero => intro s q _; rfl
  | succ n ih =>
    intro s q hu
    cases q with
    | nil => rfl
    | cons p q' =>
      obtain ⟨v, d⟩ := p
      rw [Maxroll.scrapedAddCount]
      rw [if_neg (fun hc => hc.1 hu)]
      rw [ih _ _ (parse_scraped_mono s (fetch v) d hu)]

lemma scrapedAddCount_le_one (fetch : Url → Response) (u : Str) :
    ∀ (fuel : Nat) (s : Maxroll.SpiderState) (q : List (Url × Nat)),
      Maxroll.scrapedAddCount fetch u fuel s q ≤ 1 := by
  intro fuel
  induction fuel with
  | zero => intro s q; exact Nat.zero_le 1
  | succ n ih =>
    intro s q
    cases q with
    | nil => exact Nat.zero_le 1
    | cons p q' =>
      obtain ⟨v, d⟩ := p
      rw [Maxroll.scrapedAddCount]
      by_cases hadd : u ∉ s.urls_scraped ∧
          u ∈ (Maxroll.parse s (fetch v) d).1.urls_scraped
      · rw [if_pos hadd, scrapedAddCount_of_mem fetch u n _ _ hadd.2]
      · rw [if_neg hadd, Nat.zero_add]
        exact ih _ _

/-- Claim C5: for every crawl run (any fetch oracle, any fuel), the seeds are
pre-marked in both frontier sets before the first fetch; in the reached state
the scraped set is contained in the discovered set, so its cardinality never
exceeds the discovered set's; and any given normalized URL enters the scraped
set during at most one driver step of the run. -/
theorem frontier_invariants (fetch : Url → Response) (start_urls : List Url)
    (fd : Nat) (md : Option Nat) (mp fuel : Nat) (u : Str) :
    (∀ seed ∈ start_urls,
      Maxroll.normalizeUrl seed ∈
          (Maxroll.initSpider start_urls fd md mp).urls_found ∧
        Maxroll.normalizeUrl seed ∈
          (Maxroll.initSpider start_urls fd md mp).urls_scraped) ∧
    (∀ v ∈ (Maxroll.runSpider fetch start_urls fd md mp fuel).urls_scraped,
      v ∈ (Maxroll.runSpider fetch start_urls fd md mp fuel).urls_found) ∧
    (Maxroll.runSpider fetch start_urls fd md mp fuel).urls_scraped.length ≤
      (Maxroll.runSpider fetch start_urls fd md mp fuel).urls_found.length ∧
    Maxroll.scrapedAddCount fetch u fuel
      (Maxroll.initSpider start_urls fd md mp)
      (start_urls.map (fun w => (w, 0))) ≤ 1 := by
  have hinv : FrontierInv (Maxroll.runSpider fetch start_urls fd md mp fuel) := by
    rw [Maxroll.runSpider]
    exact crawl_inv fetch fuel _ _ (initSpider_inv start_urls fd md mp)
  exact ⟨initSpider_seeds start_urls fd md mp, hinv.1,
    nodup_subset_length_le hinv.2.1 hinv.2.2 hinv.1,
    scrapedAddCount_le_one fetch u fuel _ _⟩

/-! ### C6 — page cap and depth bound -/

/-- A demo URL under `https://maxroll.gg`. -/
def demoUrl (p : String) : Url :=
  Url.mk "https".data "maxroll.gg".data p.data [] [] []

/-- A demo anchor resolving to `demoUrl p`. -/
def demoAnchor (p : String) : Anchor :=
  ⟨("https://maxroll.gg" ++ p).data, demoUrl p, some "link".data⟩

/-- A demo page with the given outbound anchors and no other content. -/
def demoPage (u : Url) (links : List Anchor) : Response :=
  { url := u, titleText := some "T".data, h1Text := none, headingTexts := [],
    paraTexts := [], ulItems := [], anchors := links, images := [],
    metaTags := [], jsonLdBlocks := [], tableCells := [], codeTexts := [] }

/-- A demo 10-page site: the seed `/d4/p0` links to nine further pages, which
are leaves. -/
def demoFetch (u : Url) : Response :=
  if u = demoUrl "/d4/p0" then
    demoPage u [demoAnchor "/d4/p1", demoAnchor "/d4/p2", demoAnchor "/d4/p3",
      demoAnchor "/d4/p4", demoAnchor "/d4/p5", demoAnchor "/d4/p6",
      demoAnchor "/d4/p7", demoAnchor "/d4/p8", demoAnchor "/d4/p9"]
  else demoPage u []

/-- Claim C6: the two hard stops at the head of `parse` — (a) once the page
count has reached `max_pages`, the branch ends with the state untouched, no
record extracted and no link visited; (b) below the cap but beyond
`max_depth`, only the depth-exceeded counter moves and again nothing is
extracted and no outbound link is followed.  On the demo site of 10 pages
with `max_pages = 3`, exactly 3 records are extracted. -/
theorem page_cap_and_depth_guard :
    (∀ (s : Maxroll.SpiderState) (resp : Response) (depth : Nat),
      s.max_pages ≤ s.pages_processed →
      Maxroll.parse s resp depth = (s, [])) ∧
    (∀ (s : Maxroll.SpiderState) (resp : Response) (depth dm : Nat),
      s.pages_processed < s.max_pages → s.max_depth = some dm → dm < depth →
      Maxroll.parse s resp depth =
        ({ s with depth_exceeded := s.depth_exceeded + 1 }, [])) ∧
    (Maxroll.runSpider demoFetch [demoUrl "/d4/p0"] 0 none 3
        20).collected_data.length = 3 ∧
    (Maxroll.runSpider demoFetch [demoUrl "/d4/p0"] 0 none 3
        20).pages_processed = 3 := by
  refine ⟨?_, ?_, by decide, by decide⟩
  · intro s resp depth h
    rw [Maxroll.parse, if_pos h]
  · intro s resp depth dm h1 h2 h3
    have hc : (match s.max_depth with
               | some d => decide (d < depth)
               | none => false) = true := by
      rw [h2]
      simpa using h3
    rw [Maxroll.parse, if_neg (by omega), if_pos hc]

/-- A state at its page cap (`max_pages = 0`). -/
def demoCapState : Maxroll.SpiderState :=
  { filter_depth := 0, max_depth := none, max_pages := 0, path_filter := none }

/-- A state with `max_depth = 1`, below its page cap. -/
def demoDepthState : Maxroll.SpiderState :=
  { filter_depth := 0, max_depth := some 1, max_pages := 10,
    path_filter := none }

/-- Claim C6 witness for `page_cap_and_depth_guard`: at the cap the state is
untouched; at depth 2 with `max_depth = 1` only the counter moves. -/
theorem page_cap_and_depth_guard_witness :
    Maxroll.parse demoCapState (demoPage (demoUrl "/d4/p0") []) 0 =
        (demoCapState, []) ∧
    Maxroll.parse demoDepthState (demoPage (demoUrl "/d4/p0") []) 2 =
      ({ demoDepthState with
          depth_exceeded := demoDepthState.depth_exceeded + 1 }, []) :=
  ⟨page_cap_and_depth_guard.1 demoCapState _ 0 (by decide),
   page_cap_and_depth_guard.2.1 demoDepthState _ 2 1 (by decide) rfl (by decide)⟩

/-! ### C7 — frontier ordering for one discovered link -/

/-- Claim C7: the admission pipeline of the follow loop, in code order.  After
normalization the URL is always recorded in the discovered set (a set add, so
the newly-found count moves only on first sight); a link failing the scope
filter bumps only the filtered counter and is not fetched, whatever the
discovery or scraped state; an in-scope link already scraped bumps only the
duplicate counter; and an in-scope fresh link is marked scraped and the fetch
request is emitted at `depth + 1` in the same step. -/
theorem frontier_link_order_spec (s : Maxroll.SpiderState) (depth : Nat)
    (a : Anchor) (hhref : a.href ≠ [])
    (hadm : Maxroll.linkAdmissible (urlunparse a.abs) = true) :
    ((Maxroll.processLink s depth a).1.urls_found =
        Maxroll.setAdd s.urls_found (Maxroll.normalizeUrl a.abs)) ∧
    (Maxroll.matchesFilter s.filter_depth s.path_filter a.abs = false →
      (Maxroll.processLink s depth a).2 = none ∧
      (Maxroll.processLink s depth a).1.pages_filtered = s.pages_filtered + 1 ∧
      (Maxroll.processLink s depth a).1.urls_scraped = s.urls_scraped ∧
      (Maxroll.processLink s depth a).1.duplicate_urls_skipped =
        s.duplicate_urls_skipped) ∧
    (Maxroll.matchesFilter s.filter_depth s.path_filter a.abs = true →
      Maxroll.normalizeUrl a.abs ∈ s.urls_scraped →
      (Maxroll.processLink s depth a).2 = none ∧
      (Maxroll.processLink s depth a).1.duplicate_urls_skipped =
        s.duplicate_urls_skipped + 1 ∧
      (Maxroll.processLink s depth a).1.urls_scraped = s.urls_scraped ∧
      (Maxroll.processLink s depth a).1.pages_filtered = s.pages_filtered) ∧
    (Maxroll.matchesFilter s.filter_depth s.path_filter a.abs = true →
      Maxroll.normalizeUrl a.abs ∉ s.urls_scraped →
      (Maxroll.processLink s depth a).1.urls_scraped =
        Maxroll.normalizeUrl a.abs :: s.urls_scraped ∧
      (Maxroll.processLink s depth a).2 = some (a.abs, depth + 1) ∧
      (Maxroll.processLink s depth a).1.pages_filtered = s.pages_filtered ∧
      (Maxroll.processLink s depth a).1.duplicate_urls_skipped =
        s.duplicate_urls_skipped) := by
  have hstep : Maxroll.processLink s depth a =
      (if Maxroll.matchesFilter s.filter_depth s.path_filter a.abs then
        if Maxroll.normalizeUrl a.abs ∈ s.urls_scraped then
          ({ s with
              urls_found :=
                Maxroll.setAdd s.urls_found (Maxroll.normalizeUrl a.abs),
              duplicate_urls_skipped := s.duplicate_urls_skipped + 1 }, none)
        else
          ({ s with
              urls_found :=
                Maxroll.setAdd s.urls_found (Maxroll.normalizeUrl a.abs),
              urls_scraped :=
                Maxroll.setAdd s.urls_scraped (Maxroll.normalizeUrl a.abs) },
            some (a.abs, depth + 1))
      else ({ s with
              urls_found :=
                Maxroll.setAdd s.urls_found (Maxroll.normalizeUrl a.abs),
              pages_filtered := s.pages_filtered + 1 }, none)) := by
    rw [Maxroll.processLink, if_neg hhref, hadm]
    rfl
  rw [hstep]
  by_cases hm : Maxroll.matchesFilter s.filter_depth s.path_filter a.abs = true
  · rw [if_pos hm]
    by_cases hmem : Maxroll.normalizeUrl a.abs ∈ s.urls_scraped
    · rw [if_pos hmem]
      refine ⟨rfl, ?_, ?_, ?_⟩
      · intro hfalse
        simp [hfalse] at hm
      · intro _ _
        exact ⟨rfl, rfl, rfl, rfl⟩
      · intro _ hnot
        exact absurd hmem hnot
    · rw [if_neg hmem]
      refine ⟨rfl, ?_, ?_, ?_⟩
      · intro hfalse
        simp [hfalse] at hm
      · intro _ hmem'
        exact absurd hmem' hmem
      · intro _ _
        refine ⟨?_, rfl, rfl, rfl⟩
        show Maxroll.setAdd s.urls_scraped (Maxroll.normalizeUrl a.abs) = _
        rw [Maxroll.setAdd, if_neg hmem]
  · rw [if_neg hm]
    rw [Bool.not_eq_true] at hm
    refine ⟨rfl, ?_, ?_, ?_⟩
    · intro _
      exact ⟨rfl, rfl, rfl, rfl⟩
    · intro htrue _
      simp [hm] at htrue
    · intro htrue _
      simp [hm] at htrue

/-- A fresh spider state with filtering disabled, below its caps. -/
def demoLinkState : Maxroll.SpiderState :=
  { filter_depth := 0, max_depth := none, max_pages := 10,
    path_filter := none }

/-- Claim C7 witness for `frontier_link_order_spec`: an admissible fresh link
is marked scraped and its request is emitted at depth 1. -/
theorem frontier_link_order_spec_witness :
    (Maxroll.processLink demoLinkState 0 (demoAnchor "/d4/p1")).1.urls_scraped =
        Maxroll.normalizeUrl (demoAnchor "/d4/p1").abs ::
          demoLinkState.urls_scraped ∧
    (Maxroll.processLink demoLinkState 0 (demoAnchor "/d4/p1")).2 =
      some ((demoAnchor "/d4/p1").abs, 1) := by
  have h := frontier_link_order_spec demoLinkState 0 (demoAnchor "/d4/p1")
    (by decide) (by decide)
  exact ⟨(h.2.2.2 (by decide) (by decide)).1, (h.2.2.2 (by decide) (by decide)).2.1⟩

/-! ### C10 — the discovery pre-filter -/

lemma containsSub_of_mem {c : Char} {hay : Str} (h : c ∈ hay) :
    Maxroll.containsSub [c] hay = true := by
  induction hay with
  | nil => exact absurd h (List.not_mem_nil c)
  | cons x rest ih =>
    rw [Maxroll.containsSub, Bool.or_eq_true]
    rcases List.mem_cons.mp h with rfl | h'
    · left
      simp [List.isPrefixOf]
    · right
      exact ih h'

/-- Claim C10: a resolved anchor URL that does not start with
`https://maxroll.gg`, or that contains one of the skip substrings anywhere,
is dropped before anything happens: the spider state (in particular the
discovered set) is unchanged and nothing is enqueued.  And every URL with a
non-empty fragment contains `'#'`, so it is caught by the skip list before
`_normalize_url` is ever applied to it. -/
theorem discovery_precheck_spec :
    (∀ (s : Maxroll.SpiderState) (depth : Nat) (a : Anchor),
      ("https://maxroll.gg".data.isPrefixOf (urlunparse a.abs) = false ∨
        ∃ t ∈ Maxroll.skipTokens,
          Maxroll.containsSub t (urlunparse a.abs) = true) →
      Maxroll.processLink s depth a = (s, none)) ∧
    (∀ u : Url, u.fragment ≠ [] →
      Maxroll.containsSub "#".data (urlunparse u) = true) := by
  constructor
  · intro s depth a h
    have hadm : Maxroll.linkAdmissible (urlunparse a.abs) = false := by
      rw [Maxroll.linkAdmissible]
      rcases h with h1 | ⟨t, ht, hc⟩
      · rw [h1, Bool.false_and]
      · have hany : Maxroll.skipTokens.any
            (fun t => Maxroll.containsSub t (urlunparse a.abs)) = true :=
          List.any_eq_true.mpr ⟨t, ht, hc⟩
        rw [hany]
        simp
    rw [Maxroll.processLink]
    split
    · rfl
    · rw [if_pos (show (!(Maxroll.linkAdmissible (urlunparse a.abs))) = true
        from by rw [hadm]; rfl)]
  · intro u hfrag
    have hmem : '#' ∈ urlunparse u := by
      rw [urlunparse]
      refine List.mem_append.mpr (Or.inr ?_)
      rw [if_neg hfrag]
      exact List.mem_cons_self _ _
    exact containsSub_of_mem hmem

/-- Claim C10 witness for `discovery_precheck_spec`: an off-domain link leaves
the state untouched, and a fragment-carrying URL contains `'#'`. -/
theorem discovery_precheck_witness :
    Maxroll.processLink demoLinkState 0
        (Anchor.mk "x".data
          (Url.mk "https".data "example.com".data "/a".data [] [] [])
          none) =
      (demoLinkState, none) ∧
    Maxroll.containsSub "#".data
      (urlunparse
        (Url.mk "https".data "maxroll.gg".data "/d4/x".data [] []
          "top".data)) = true :=
  ⟨discovery_precheck_spec.1 demoLinkState 0 _ (Or.inl (by decide)),
   discovery_precheck_spec.2 _ (by decide)⟩

end Scraper
